import Mathlib

/-!
Verification of the CATculator molecular-formula search engine
(`src/models/base.py`) against its natural-language specification.

The embedding models Python floats as exact rationals (`ℚ`), Python dicts
as association lists in insertion order, Python exceptions (`KeyError`,
`ZeroDivisionError`) as an `Except Err` result, and the single `print`
call inside `find_molecular_formulas` as an explicit list of print events
returned alongside the result.
-/

namespace CATculator

abbrev ElementSymbol := String

/-- A molecular formula: element symbols with atom counts, in dict insertion
order (Python `dict[str, int]`). -/
abbrev Formula := List (ElementSymbol × ℕ)

/-- A table of monoisotopic masses (Python `dict[str, float]`). -/
abbrev MassTable := List (ElementSymbol × ℚ)

/-- Per-element inclusive atom-count bounds (Python `dict[str, (int, int)]`). -/
abbrev AtomRanges := List (ElementSymbol × ℕ × ℕ)

/-- The exceptions the engine can raise: a Python `KeyError` on a dict
lookup of a missing symbol, and `ZeroDivisionError` from the deviation
computation. -/
inductive Err where
  | keyError (symbol : ElementSymbol)
  | zeroDivision
deriving DecidableEq, Repr

/-- The keys of a dict modelled as an association list. -/
def keysOf {β : Type} (l : List (ElementSymbol × β)) : List ElementSymbol :=
  l.map Prod.fst

/-- Python `formula.get(e, 0)`: the count of element `e`, defaulting to 0. -/
def fget (f : Formula) (e : ElementSymbol) : ℕ :=
  (List.lookup e f).getD 0

/-- Embeds `calculate_mass` from `src/models/base.py`: sums
`monoisotopiqueMasses[element] * count` over the formula's items, raising
`KeyError` at the first symbol missing from the mass table. -/
def calculate_mass : Formula → MassTable → Except Err ℚ
  | [], _ => .ok 0
  | (e, c) :: rest, mt =>
    match List.lookup e mt with
    | none => .error (.keyError e)
    | some m =>
      match calculate_mass rest mt with
      | .error err => .error err
      | .ok s => .ok (m * (c : ℚ) + s)

/-- Embeds `calculate_unsaturation` from `src/models/base.py`:
DBE = C - (H + X)/2 + N/2 + 1 with X = F + Cl + Br + I, absent elements
counting as 0. -/
def calculate_unsaturation (f : Formula) : ℚ :=
  let C : ℚ := fget f "C"
  let H : ℚ := fget f "H"
  let N : ℚ := fget f "N"
  let F : ℚ := fget f "F"
  let Cl : ℚ := fget f "Cl"
  let Br : ℚ := fget f "Br"
  let I : ℚ := fget f "I"
  let X : ℚ := F + Cl + Br + I
  C - (H + X) / 2 + N / 2 + 1

/-- The fixed valence table of `is_valid_formula`. -/
def valency : List (ElementSymbol × ℕ) :=
  [("C", 4), ("H", 1), ("N", 3), ("O", 2), ("S", 2), ("F", 1),
   ("Cl", 7), ("Br", 7), ("I", 7)]

/-- The `totalBonds` expression of `is_valid_formula`: a hard-coded sum over
the nine named elements using `formula.get(e, 0)`. -/
def totalBonds (f : Formula) : ℕ :=
  4 * fget f "C" + 1 * fget f "H" + 3 * fget f "N" + 2 * fget f "O" +
  2 * fget f "S" + 1 * fget f "F" + 7 * fget f "Cl" + 7 * fget f "Br" +
  7 * fget f "I"

/-- The `maxPossibleBonds` expression of `is_valid_formula`:
`sum(valency[element] * count for element, count in formula.items())`,
raising `KeyError` at the first formula key absent from `valency`. -/
def maxPossibleBonds : Formula → Except Err ℕ
  | [] => .ok 0
  | (e, c) :: rest =>
    match List.lookup e valency with
    | none => .error (.keyError e)
    | some v =>
      match maxPossibleBonds rest with
      | .error err => .error err
      | .ok s => .ok (v * c + s)

/-- Embeds `is_valid_formula` from `src/models/base.py`: returns
`totalBonds <= maxPossibleBonds`, propagating the `KeyError` from the
`maxPossibleBonds` computation. -/
def is_valid_formula (f : Formula) : Except Err Bool :=
  match maxPossibleBonds f with
  | .error err => .error err
  | .ok mpb => .ok (decide (totalBonds f ≤ mpb))

/-- The per-element ranges built by `generate_formulas`:
`range(atomRanges[element][0], atomRanges[element][1] + 1)` for each element,
in dict order.  `List.range' lo (hi + 1 - lo)` is `[lo, ..., hi]`, empty when
`hi < lo`, exactly like the Python `range`. -/
def rangesOf (ar : AtomRanges) : List (List ℕ) :=
  ar.map (fun p => List.range' p.2.1 (p.2.2 + 1 - p.2.1))

/-- Embeds `itertools.product` over a list of ranges, in lexicographic order with
the last factor varying fastest. -/
def cartProd : List (List ℕ) → List (List ℕ)
  | [] => [[]]
  | r :: rs => r.flatMap (fun x => (cartProd rs).map (fun combo => x :: combo))

/-- The dict comprehension
`{element: count for element, count in zip(atomRanges.keys(), combo)}`. -/
def mkFormula (ar : AtomRanges) (combo : List ℕ) : Formula :=
  List.zipWith (fun (p : ElementSymbol × ℕ × ℕ) c => (p.1, c)) ar combo

/-- Python `sum(formula.values())`. -/
def totalAtoms (f : Formula) : ℕ :=
  (f.map Prod.snd).sum

/-- The loop body of `generate_formulas`, traversing the Cartesian product
in order: skip combos whose total atom count is zero or exceeds the cap,
compute the mass (propagating `KeyError`), and yield the formula when the
mass lies in the inclusive window. -/
def generateAux (ar : AtomRanges) (mt : MassTable) (minMass maxMass : ℚ)
    (maxTotalAtoms : ℕ) : List (List ℕ) → Except Err (List Formula)
  | [] => .ok []
  | combo :: rest =>
    let f := mkFormula ar combo
    let total := totalAtoms f
    if total = 0 ∨ maxTotalAtoms < total then
      generateAux ar mt minMass maxMass maxTotalAtoms rest
    else
      match calculate_mass f mt with
      | .error err => .error err
      | .ok mass =>
        match generateAux ar mt minMass maxMass maxTotalAtoms rest with
        | .error err => .error err
        | .ok fs => .ok (if minMass ≤ mass ∧ mass ≤ maxMass then f :: fs else fs)

/-- Embeds `generate_formulas` from `src/models/base.py` (the Python default
`maxTotalAtoms=150` is passed explicitly by the caller here). -/
def generate_formulas (ar : AtomRanges) (mt : MassTable) (minMass maxMass : ℚ)
    (maxTotalAtoms : ℕ) : Except Err (List Formula) :=
  generateAux ar mt minMass maxMass maxTotalAtoms (cartProd (rangesOf ar))

/-- One candidate row of the orchestrator's result list. -/
structure CandidateResult where
  formula : Formula
  mass : ℚ
  mz : ℚ
  deviation : ℚ
  unsaturation : ℚ
deriving DecidableEq, Repr

/-- The body of the orchestrator's `for formula in generate_formulas(...)`
loop: recompute the mass, compute the unsaturation, keep candidates inside
the inclusive unsaturation range, and build the result record with
`deviationppm = ((exactMass - mass) / mass) * 1e6` (raising
`ZeroDivisionError` when `mass == 0`) and `mz = mass + ionization`. -/
def scoreFormulas (mt : MassTable) (exactMass ionization : ℚ)
    (unsaturationRange : ℚ × ℚ) : List Formula → Except Err (List CandidateResult)
  | [] => .ok []
  | f :: rest =>
    match calculate_mass f mt with
    | .error err => .error err
    | .ok mass =>
      let unsat := calculate_unsaturation f
      if unsaturationRange.1 ≤ unsat ∧ unsat ≤ unsaturationRange.2 then
        if mass = 0 then .error .zeroDivision
        else
          match scoreFormulas mt exactMass ionization unsaturationRange rest with
          | .error err => .error err
          | .ok rs =>
            .ok (⟨f, mass, mass + ionization,
                  ((exactMass - mass) / mass) * 1000000, unsat⟩ :: rs)
      else scoreFormulas mt exactMass ionization unsaturationRange rest

/-- The enumeration-then-scoring pipeline of `find_molecular_formulas`
before the final sort: the generator interleaves with the loop in Python,
but since the whole call either returns the full list or raises, running
generation to completion first is observationally identical. -/
def candidateStream (ar : AtomRanges) (mt : MassTable) (minMass maxMass : ℚ)
    (exactMass ionization : ℚ) (unsaturationRange : ℚ × ℚ) :
    Except Err (List CandidateResult) :=
  match generate_formulas ar mt minMass maxMass 150 with
  | .error err => .error err
  | .ok fs => scoreFormulas mt exactMass ionization unsaturationRange fs

/-- Embeds the call `possible_formulas.sort(key=lambda x: abs(x["deviation"]))`: Python's
sort is stable; `List.mergeSort` is a stable sort on the same key. -/
def sortByAbsDeviation (rs : List CandidateResult) : List CandidateResult :=
  rs.mergeSort (fun a b => decide (|a.deviation| ≤ |b.deviation|))

/-- A line printed by the engine, carrying the two interpolated values. -/
structure PrintEvent where
  message : String
  lower : ℚ
  upper : ℚ
deriving DecidableEq, Repr

/-- Embeds `find_molecular_formulas` from `src/models/base.py`.  The returned pair
is (lines printed, result-or-exception): the function prints the mass window
and then either raises (`.error`) or returns the deviation-sorted list. -/
def find_molecular_formulas (targetMass ppmTolerance : ℚ) (ar : AtomRanges)
    (mt : MassTable) (ionization : ℚ) (unsaturationRange : ℚ × ℚ) :
    List PrintEvent × Except Err (List CandidateResult) :=
  let tolerance := ppmTolerance / 1000000
  let exactMass := targetMass - ionization
  let minMass := exactMass - tolerance * exactMass
  let maxMass := exactMass + tolerance * exactMass
  ([⟨"Mass range from the expected value:", minMass, maxMass⟩],
   Except.map sortByAbsDeviation
     (candidateStream ar mt minMass maxMass exactMass ionization unsaturationRange))

/-! ## Helper lemmas about lookups and formulas -/

/-- Looking up a key that is not among the keys of an association list fails. -/
theorem lookup_none {β : Type} :
    ∀ (l : List (ElementSymbol × β)) (e : ElementSymbol),
      e ∉ keysOf l → List.lookup e l = none
  | [], _, _ => rfl
  | (k, v) :: rest, e, h => by
    have h1 : e ≠ k ∧ e ∉ keysOf rest := by
      simpa [keysOf, not_or] using h
    rw [List.lookup_cons]
    have hk : (e == k) = false := by simp [h1.1]
    simp only [hk]
    exact lookup_none rest e h1.2

/-- A lookup succeeds exactly when the key occurs in the list. -/
theorem lookup_isSome_iff {β : Type} :
    ∀ (l : List (ElementSymbol × β)) (e : ElementSymbol),
      (List.lookup e l).isSome = true ↔ e ∈ keysOf l
  | [], e => by simp [keysOf, List.lookup]
  | (k, v) :: rest, e => by
    rw [List.lookup_cons]
    by_cases hek : e = k
    · subst hek
      simp [keysOf]
    · have hk : (e == k) = false := by simp [hek]
      simp only [hk, keysOf, List.map_cons, List.mem_cons]
      rw [lookup_isSome_iff rest e]
      simp [keysOf, hek]

/-- Computation rule: looking up the head key. -/
theorem lookup_cons_eq {β : Type} (k : ElementSymbol) (v : β)
    (rest : List (ElementSymbol × β)) : List.lookup k ((k, v) :: rest) = some v := by
  simp [List.lookup_cons]

/-- Computation rule: a lookup skips a head entry with a different key. -/
theorem lookup_cons_ne {β : Type} {x k : ElementSymbol} (v : β)
    (rest : List (ElementSymbol × β)) (h : x ≠ k) :
    List.lookup x ((k, v) :: rest) = List.lookup x rest := by
  have hk : (x == k) = false := by simp [h]
  simp [List.lookup_cons, hk]

theorem fget_cons_self (e : ElementSymbol) (c : ℕ) (rest : Formula) :
    fget ((e, c) :: rest) e = c := by
  simp [fget, List.lookup_cons]

theorem fget_cons_ne (x e : ElementSymbol) (c : ℕ) (rest : Formula)
    (h : x ≠ e) : fget ((e, c) :: rest) x = fget rest x := by
  have hk : (x == e) = false := by simp [h]
  simp [fget, List.lookup_cons, hk]

theorem fget_eq_zero {rest : Formula} {e : ElementSymbol}
    (h : e ∉ keysOf rest) : fget rest e = 0 := by
  simp [fget, lookup_none rest e h]

/-! ## Helper lemmas about `calculate_mass` -/

/-- When the mass table covers every symbol of the formula, `calculate_mass`
returns normally. -/
theorem calculate_mass_ok_of_cover :
    ∀ (f : Formula) (mt : MassTable),
      (∀ e ∈ keysOf f, (List.lookup e mt).isSome = true) →
      ∃ m, calculate_mass f mt = .ok m
  | [], _, _ => ⟨0, rfl⟩
  | (e, c) :: rest, mt, h => by
    have he : (List.lookup e mt).isSome = true := h e (by simp [keysOf])
    obtain ⟨m, hm⟩ := Option.isSome_iff_exists.mp he
    obtain ⟨s, hs⟩ := calculate_mass_ok_of_cover rest mt
      (fun x hx => h x (by simp only [keysOf, List.map_cons, List.mem_cons]; right; exact hx))
    exact ⟨m * c + s, by simp [calculate_mass, hm, hs]⟩

/-- When some symbol of the formula is missing from the mass table,
`calculate_mass` raises a `KeyError`. -/
theorem calculate_mass_error_of_missing :
    ∀ (f : Formula) (mt : MassTable) (e : ElementSymbol),
      e ∈ keysOf f → List.lookup e mt = none →
      ∃ e', calculate_mass f mt = .error (.keyError e')
  | (k, c) :: rest, mt, e, he, hnone => by
    cases hk : List.lookup k mt with
    | none => exact ⟨k, by simp [calculate_mass, hk]⟩
    | some m =>
      have hek : e ≠ k := by
        intro h
        subst h
        rw [hnone] at hk
        cases hk
      have herest : e ∈ keysOf rest := by
        simpa [keysOf, hek] using he
      obtain ⟨e', he'⟩ := calculate_mass_error_of_missing rest mt e herest hnone
      exact ⟨e', by simp [calculate_mass, hk, he']⟩

/-- With a mass table assigning a positive mass to every symbol of the
formula, the mass is non-negative, and positive once the formula has at
least one atom. -/
theorem calculate_mass_pos :
    ∀ (f : Formula) (mt : MassTable),
      (∀ e ∈ keysOf f, ∃ m, List.lookup e mt = some m ∧ 0 < m) →
      ∃ m, calculate_mass f mt = .ok m ∧ 0 ≤ m ∧ (1 ≤ totalAtoms f → 0 < m)
  | [], _, _ => ⟨0, rfl, le_refl 0, by simp [totalAtoms]⟩
  | (e, c) :: rest, mt, h => by
    obtain ⟨m, hm, hmpos⟩ := h e (by simp [keysOf])
    obtain ⟨s, hs, hsnn, hspos⟩ := calculate_mass_pos rest mt
      (fun x hx => h x (by simp only [keysOf, List.map_cons, List.mem_cons]; right; exact hx))
    refine ⟨m * c + s, by simp [calculate_mass, hm, hs], ?_, ?_⟩
    · have : (0 : ℚ) ≤ m * c := mul_nonneg hmpos.le (by positivity)
      linarith
    · intro htot
      have htot' : 1 ≤ c + totalAtoms rest := by simpa [totalAtoms] using htot
      rcases Nat.eq_zero_or_pos c with hc | hc
      · have : 1 ≤ totalAtoms rest := by omega
        have := hspos this
        have : (0 : ℚ) ≤ m * c := mul_nonneg hmpos.le (by positivity)
        linarith [hspos (by omega : 1 ≤ totalAtoms rest)]
      · have hc1 : (1 : ℚ) ≤ (c : ℚ) := by exact_mod_cast hc
        have : m ≤ m * c := le_mul_of_one_le_right hmpos.le hc1
        linarith

/-! ## Helper lemmas about the Cartesian product -/

/-- Membership in the product: a combo picks one member from each range. -/
theorem mem_cartProd :
    ∀ (rss : List (List ℕ)) (combo : List ℕ),
      combo ∈ cartProd rss ↔ List.Forall₂ (fun x r => x ∈ r) combo rss
  | [], combo => by
    simp only [cartProd, List.mem_singleton]
    constructor
    · rintro rfl; exact List.Forall₂.nil
    · intro h; cases h; rfl
  | r :: rss, combo => by
    simp only [cartProd, List.mem_flatMap, List.mem_map]
    constructor
    · rintro ⟨x, hx, c, hc, rfl⟩
      exact List.Forall₂.cons hx ((mem_cartProd rss c).mp hc)
    · intro h
      cases h with
      | cons hx hc => exact ⟨_, hx, _, (mem_cartProd rss _).mpr hc, rfl⟩

theorem length_of_mem_cartProd {rss : List (List ℕ)} {combo : List ℕ}
    (h : combo ∈ cartProd rss) : combo.length = rss.length :=
  ((mem_cartProd rss combo).mp h).length_eq

/-- If one of the ranges is empty, the whole product is empty. -/
theorem cartProd_eq_nil :
    ∀ (rss : List (List ℕ)), [] ∈ rss → cartProd rss = []
  | r :: rss, h => by
    rcases List.mem_cons.mp h with h1 | h1
    · rw [← h1]
      simp [cartProd]
    · simp [cartProd, cartProd_eq_nil rss h1]

/-! ## Helper lemmas about `mkFormula` -/

theorem keysOf_mkFormula_subset :
    ∀ (ar : AtomRanges) (combo : List ℕ) (e : ElementSymbol),
      e ∈ keysOf (mkFormula ar combo) → e ∈ keysOf ar
  | [], _, e, h => by simp [mkFormula, keysOf] at h
  | p :: ar, [], e, h => by simp [mkFormula, keysOf] at h
  | p :: ar, c :: combo, e, h => by
    simp only [mkFormula, List.zipWith_cons_cons, keysOf, List.map_cons,
      List.mem_cons] at h ⊢
    rcases h with h | h
    · exact Or.inl h
    · exact Or.inr (keysOf_mkFormula_subset ar combo e h)

theorem keysOf_mkFormula :
    ∀ (ar : AtomRanges) (combo : List ℕ), ar.length ≤ combo.length →
      keysOf (mkFormula ar combo) = keysOf ar
  | [], _, _ => by simp [mkFormula, keysOf]
  | p :: ar, [], h => by simp at h
  | p :: ar, c :: combo, h => by
    simp only [mkFormula, List.zipWith_cons_cons, keysOf, List.map_cons] at *
    rw [show List.map Prod.fst (List.zipWith (fun (p : ElementSymbol × ℕ × ℕ) c => (p.1, c)) ar combo) = keysOf ar from keysOf_mkFormula ar combo (by simpa using h)]
    rfl

/-- Each configured element's count in a generated formula respects its
inclusive bounds. -/
theorem fget_mkFormula_bounds :
    ∀ (ar : AtomRanges) (combo : List ℕ),
      (keysOf ar).Nodup →
      List.Forall₂ (fun x r => x ∈ r) combo (rangesOf ar) →
      ∀ e lo hi, (e, lo, hi) ∈ ar →
        lo ≤ fget (mkFormula ar combo) e ∧ fget (mkFormula ar combo) e ≤ hi
  | [], _, _, _, e, lo, hi, h => by cases h
  | (e', lo', hi') :: ar, combo, hnd, hf, e, lo, hi, h => by
    have hsplit : ∃ c combo', combo = c :: combo' ∧
        c ∈ List.range' lo' (hi' + 1 - lo') ∧
        List.Forall₂ (fun x r => x ∈ r) combo' (rangesOf ar) := by
      cases hf with
      | cons hx hrest => exact ⟨_, _, rfl, hx, hrest⟩
    obtain ⟨c, combo', rfl, hc, hrest⟩ := hsplit
    have hndtail : (keysOf ar).Nodup := by
      simpa [keysOf] using hnd.of_cons
    rcases List.mem_cons.mp h with h1 | h1
    · have he : e = e' := congrArg Prod.fst h1
      have hlohi : lo = lo' ∧ hi = hi' := by
        have := congrArg Prod.snd h1
        exact ⟨congrArg Prod.fst this, congrArg Prod.snd this⟩
      subst he
      obtain ⟨rfl, rfl⟩ := hlohi
      have : fget (mkFormula ((e, lo, hi) :: ar) (c :: combo')) e = c := by
        simp only [mkFormula, List.zipWith_cons_cons]
        exact fget_cons_self e c _
      rw [this]
      have := List.mem_range'_1.mp hc
      omega
    · have hne : e ≠ e' := by
        intro hcontra
        subst hcontra
        have h1' : e ∈ keysOf ar := List.mem_map_of_mem Prod.fst h1
        have : e ∉ keysOf ar := by
          have := hnd
          simp only [keysOf, List.map_cons] at this
          exact (List.nodup_cons.mp this).1
        exact this h1'
      have : fget (mkFormula ((e', lo', hi') :: ar) (c :: combo')) e =
          fget (mkFormula ar combo') e := by
        simp only [mkFormula, List.zipWith_cons_cons]
        exact fget_cons_ne e e' c _ hne
      rw [this]
      exact fget_mkFormula_bounds ar combo' hndtail hrest e lo hi h1

/-! ## Helper lemmas about the enumerator loop -/

/-- Inversion: every formula produced by the enumerator loop comes from a
combo of the traversed list, has total atom count in `(0, cap]`, and has a
mass inside the inclusive window. -/
theorem generateAux_mem {ar : AtomRanges} {mt : MassTable} {lo hi : ℚ} {cap : ℕ} :
    ∀ (cs : List (List ℕ)) (fs : List Formula),
      generateAux ar mt lo hi cap cs = .ok fs → ∀ f ∈ fs,
      ∃ combo ∈ cs, f = mkFormula ar combo ∧ 0 < totalAtoms f ∧ totalAtoms f ≤ cap ∧
        ∃ m, calculate_mass f mt = .ok m ∧ lo ≤ m ∧ m ≤ hi
  | [], fs, h, f, hf => by
    simp only [generateAux] at h
    cases h
    simp at hf
  | combo :: rest, fs, h, f, hf => by
    simp only [generateAux] at h
    by_cases hskip : totalAtoms (mkFormula ar combo) = 0 ∨ cap < totalAtoms (mkFormula ar combo)
    · rw [if_pos hskip] at h
      obtain ⟨c, hc, hrest⟩ := generateAux_mem rest fs h f hf
      exact ⟨c, List.mem_cons_of_mem _ hc, hrest⟩
    · rw [if_neg hskip] at h
      cases hm : calculate_mass (mkFormula ar combo) mt with
      | error err => rw [hm] at h; simp only [] at h; cases h
      | ok m =>
        rw [hm] at h
        simp only [] at h
        cases hrest : generateAux ar mt lo hi cap rest with
        | error err => rw [hrest] at h; simp only [] at h; cases h
        | ok fs' =>
          rw [hrest] at h
          simp only [Except.ok.injEq] at h
          by_cases hw : lo ≤ m ∧ m ≤ hi
          · rw [if_pos hw] at h
            cases h
            rcases List.mem_cons.mp hf with rfl | hf'
            · exact ⟨combo, List.mem_cons_self _ _, rfl, by omega, by omega, m, hm, hw⟩
            · obtain ⟨c, hc, hrest'⟩ := generateAux_mem rest fs' hrest f hf'
              exact ⟨c, List.mem_cons_of_mem _ hc, hrest'⟩
          · rw [if_neg hw] at h
            cases h
            obtain ⟨c, hc, hrest'⟩ := generateAux_mem rest fs hrest f hf
            exact ⟨c, List.mem_cons_of_mem _ hc, hrest'⟩

/-- Characterization under a covering mass table: the loop returns normally
and yields exactly the combos that pass the atom-count and mass filters. -/
theorem generateAux_cover {ar : AtomRanges} {mt : MassTable} {lo hi : ℚ} {cap : ℕ}
    (hcov : ∀ e ∈ keysOf ar, (List.lookup e mt).isSome = true) :
    ∀ (cs : List (List ℕ)),
      ∃ fs, generateAux ar mt lo hi cap cs = .ok fs ∧
        ∀ f, f ∈ fs ↔ ∃ combo ∈ cs, f = mkFormula ar combo ∧ 0 < totalAtoms f ∧
          totalAtoms f ≤ cap ∧ ∃ m, calculate_mass f mt = .ok m ∧ lo ≤ m ∧ m ≤ hi
  | [] => ⟨[], by simp [generateAux]⟩
  | combo :: rest => by
    obtain ⟨fs', hfs', hiff⟩ := generateAux_cover hcov rest
    have hcov' : ∀ e ∈ keysOf (mkFormula ar combo), (List.lookup e mt).isSome = true :=
      fun e he => hcov e (keysOf_mkFormula_subset ar combo e he)
    obtain ⟨m₀, hm₀⟩ := calculate_mass_ok_of_cover (mkFormula ar combo) mt hcov'
    by_cases hskip : totalAtoms (mkFormula ar combo) = 0 ∨ cap < totalAtoms (mkFormula ar combo)
    · refine ⟨fs', by simp only [generateAux]; rw [if_pos hskip]; exact hfs', ?_⟩
      intro f
      rw [hiff f]
      constructor
      · rintro ⟨c, hc, hrest⟩
        exact ⟨c, List.mem_cons_of_mem _ hc, hrest⟩
      · rintro ⟨c, hc, heq, htot, hcap, hm⟩
        rcases List.mem_cons.mp hc with rfl | hc'
        · rw [heq] at htot hcap
          omega
        · exact ⟨c, hc', heq, htot, hcap, hm⟩
    · by_cases hw : lo ≤ m₀ ∧ m₀ ≤ hi
      · refine ⟨mkFormula ar combo :: fs', ?_, ?_⟩
        · simp only [generateAux]
          rw [if_neg hskip, hm₀, hfs']
          simp only []
          rw [if_pos hw]
        · intro f
          simp only [List.mem_cons]
          rw [hiff f]
          constructor
          · rintro (rfl | ⟨c, hc, hrest⟩)
            · exact ⟨combo, Or.inl rfl, rfl, by omega, by omega, m₀, hm₀, hw⟩
            · exact ⟨c, Or.inr hc, hrest⟩
          · rintro ⟨c, hc, heq, htot, hcap, m, hm, hw'⟩
            rcases hc with rfl | hc'
            · exact Or.inl heq
            · exact Or.inr ⟨c, hc', heq, htot, hcap, m, hm, hw'⟩
      · refine ⟨fs', ?_, ?_⟩
        · simp only [generateAux]
          rw [if_neg hskip, hm₀, hfs']
          simp only []
          rw [if_neg hw]
        · intro f
          rw [hiff f]
          constructor
          · rintro ⟨c, hc, hrest⟩
            exact ⟨c, List.mem_cons_of_mem _ hc, hrest⟩
          · rintro ⟨c, hc, heq, htot, hcap, m, hm, hw'⟩
            rcases List.mem_cons.mp hc with rfl | hc'
            · rw [heq] at hm
              rw [hm₀] at hm
              cases hm
              exact absurd hw' hw
            · exact ⟨c, hc', heq, htot, hcap, m, hm, hw'⟩

/-- Every error `calculate_mass` raises is a `KeyError`. -/
theorem calculate_mass_error_is_keyError :
    ∀ (f : Formula) (mt : MassTable) (err : Err),
      calculate_mass f mt = .error err → ∃ e, err = .keyError e
  | [], _, _, h => by cases h
  | (k, c) :: rest, mt, err, h => by
    simp only [calculate_mass] at h
    cases hk : List.lookup k mt with
    | none =>
      rw [hk] at h
      simp only [Except.error.injEq] at h
      exact ⟨k, h.symm⟩
    | some m =>
      rw [hk] at h
      simp only [] at h
      cases hrest : calculate_mass rest mt with
      | error err' =>
        rw [hrest] at h
        simp only [Except.error.injEq] at h
        obtain ⟨e, he⟩ := calculate_mass_error_is_keyError rest mt err' hrest
        exact ⟨e, h ▸ he⟩
      | ok s =>
        rw [hrest] at h
        simp only [] at h
        cases h

/-- With a symbol of `atomRanges` missing from the mass table, the loop
raises a `KeyError` as soon as some traversed combo passes the atom-count
filter. -/
theorem generateAux_error_of_missing {ar : AtomRanges} {mt : MassTable}
    {lo hi : ℚ} {cap : ℕ} {e : ElementSymbol} (he : e ∈ keysOf ar)
    (hnone : List.lookup e mt = none) :
    ∀ (cs : List (List ℕ)) (c₀ : List ℕ), c₀ ∈ cs → ar.length ≤ c₀.length →
      0 < totalAtoms (mkFormula ar c₀) → totalAtoms (mkFormula ar c₀) ≤ cap →
      ∃ e', generateAux ar mt lo hi cap cs = .error (.keyError e')
  | c :: rest, c₀, hc₀, hlen, htot, hcap => by
    rcases List.mem_cons.mp hc₀ with rfl | hc₀'
    · have hskip : ¬(totalAtoms (mkFormula ar c₀) = 0 ∨ cap < totalAtoms (mkFormula ar c₀)) := by
        omega
      have hekeys : e ∈ keysOf (mkFormula ar c₀) := by
        rw [keysOf_mkFormula ar c₀ hlen]
        exact he
      obtain ⟨e', he'⟩ := calculate_mass_error_of_missing (mkFormula ar c₀) mt e hekeys hnone
      refine ⟨e', ?_⟩
      simp only [generateAux]
      rw [if_neg hskip, he']
    · obtain ⟨e', herr⟩ :=
        generateAux_error_of_missing he hnone rest c₀ hc₀' hlen htot hcap
      by_cases hskip : totalAtoms (mkFormula ar c) = 0 ∨ cap < totalAtoms (mkFormula ar c)
      · exact ⟨e', by simp only [generateAux]; rw [if_pos hskip]; exact herr⟩
      · cases hm : calculate_mass (mkFormula ar c) mt with
        | error err' =>
          obtain ⟨e'', he''⟩ := calculate_mass_error_is_keyError (mkFormula ar c) mt err' hm
          refine ⟨e'', ?_⟩
          simp only [generateAux]
          rw [if_neg hskip, hm, he'']
        | ok m =>
          exact ⟨e', by simp only [generateAux]; rw [if_neg hskip, hm, herr]⟩

/-- When every traversed combo fails the atom-count filter, the loop yields
nothing and never touches the mass table. -/
theorem generateAux_all_skip {ar : AtomRanges} {mt : MassTable} {lo hi : ℚ} {cap : ℕ} :
    ∀ (cs : List (List ℕ)),
      (∀ c ∈ cs, totalAtoms (mkFormula ar c) = 0 ∨ cap < totalAtoms (mkFormula ar c)) →
      generateAux ar mt lo hi cap cs = .ok []
  | [], _ => rfl
  | c :: rest, h => by
    simp only [generateAux]
    rw [if_pos (h c (List.mem_cons_self _ _))]
    exact generateAux_all_skip rest (fun c' hc' => h c' (List.mem_cons_of_mem _ hc'))

/-! ## Helper lemmas about the scoring loop -/

/-- Every result row of the scoring loop carries a formula of the input list. -/
theorem scoreFormulas_mem {mt : MassTable} {em ion : ℚ} {ur : ℚ × ℚ} :
    ∀ (fs : List Formula) (rs : List CandidateResult),
      scoreFormulas mt em ion ur fs = .ok rs → ∀ r ∈ rs, r.formula ∈ fs
  | [], rs, h, r, hr => by
    simp only [scoreFormulas] at h
    cases h
    simp at hr
  | f :: rest, rs, h, r, hr => by
    simp only [scoreFormulas] at h
    cases hm : calculate_mass f mt with
    | error err => rw [hm] at h; simp only [] at h; cases h
    | ok m =>
      rw [hm] at h
      simp only [] at h
      by_cases hu : ur.1 ≤ calculate_unsaturation f ∧ calculate_unsaturation f ≤ ur.2
      · rw [if_pos hu] at h
        by_cases hz : m = 0
        · rw [if_pos hz] at h; cases h
        · rw [if_neg hz] at h
          cases hrest : scoreFormulas mt em ion ur rest with
          | error err => rw [hrest] at h; simp only [] at h; cases h
          | ok rs' =>
            rw [hrest] at h
            simp only [Except.ok.injEq] at h
            cases h
            rcases List.mem_cons.mp hr with rfl | hr'
            · exact List.mem_cons_self _ _
            · exact List.mem_cons_of_mem _ (scoreFormulas_mem rest rs' hrest r hr')
      · rw [if_neg hu] at h
        exact List.mem_cons_of_mem _ (scoreFormulas_mem rest rs h r hr)

/-- When every input formula has a well-defined positive mass, the scoring
loop returns normally: the zero-division guard is unreachable. -/
theorem scoreFormulas_ok_of_pos {mt : MassTable} {em ion : ℚ} {ur : ℚ × ℚ} :
    ∀ (fs : List Formula),
      (∀ f ∈ fs, ∃ m, calculate_mass f mt = .ok m ∧ 0 < m) →
      ∃ rs, scoreFormulas mt em ion ur fs = .ok rs
  | [], _ => ⟨[], rfl⟩
  | f :: rest, h => by
    obtain ⟨m, hm, hmpos⟩ := h f (List.mem_cons_self _ _)
    obtain ⟨rs', hrs'⟩ := scoreFormulas_ok_of_pos rest
      (fun f' hf' => h f' (List.mem_cons_of_mem _ hf'))
    by_cases hu : ur.1 ≤ calculate_unsaturation f ∧ calculate_unsaturation f ≤ ur.2
    · refine ⟨⟨f, m, m + ion, ((em - m) / m) * 1000000, calculate_unsaturation f⟩ :: rs', ?_⟩
      simp only [scoreFormulas]
      rw [hm]
      simp only []
      rw [if_pos hu, if_neg (ne_of_gt hmpos), hrs']
    · refine ⟨rs', ?_⟩
      simp only [scoreFormulas]
      rw [hm]
      simp only []
      rw [if_neg hu]
      exact hrs'

/-! ## Helper lemmas about the stable sort -/

theorem absDevLe_trans : ∀ (a b c : CandidateResult),
    decide (|a.deviation| ≤ |b.deviation|) = true →
    decide (|b.deviation| ≤ |c.deviation|) = true →
    decide (|a.deviation| ≤ |c.deviation|) = true := by
  intro a b c hab hbc
  simp only [decide_eq_true_eq] at *
  exact le_trans hab hbc

theorem absDevLe_total : ∀ (a b : CandidateResult),
    (decide (|a.deviation| ≤ |b.deviation|) || decide (|b.deviation| ≤ |a.deviation|)) = true := by
  intro a b
  simp only [Bool.or_eq_true, decide_eq_true_eq]
  exact le_total _ _

/-- The sorted output is pairwise ordered by absolute deviation. -/
theorem sortByAbsDeviation_pairwise (l : List CandidateResult) :
    List.Pairwise (fun a b : CandidateResult => |a.deviation| ≤ |b.deviation|)
      (sortByAbsDeviation l) := by
  have h := List.sorted_mergeSort absDevLe_trans absDevLe_total l
  exact h.imp (by intro a b hab; simpa using hab)

theorem mem_sortByAbsDeviation {r : CandidateResult} {l : List CandidateResult} :
    r ∈ sortByAbsDeviation l ↔ r ∈ l :=
  (List.mergeSort_perm l _).mem_iff

/-- Stability: within each class of equal absolute deviation, the sorted
output preserves the input order. -/
theorem sortByAbsDeviation_filter (l : List CandidateResult) (q : ℚ) :
    (sortByAbsDeviation l).filter (fun r => decide (|r.deviation| = q)) =
      l.filter (fun r => decide (|r.deviation| = q)) := by
  set p : CandidateResult → Bool := fun r => decide (|r.deviation| = q) with hp
  have hpmem : ∀ a ∈ l.filter p, |a.deviation| = q := by
    intro a ha
    have := List.of_mem_filter ha
    rw [hp] at this
    simpa using this
  have hpair : (l.filter p).Pairwise
      (fun a b : CandidateResult => decide (|a.deviation| ≤ |b.deviation|) = true) := by
    apply List.pairwise_of_forall_mem_list
    intro a ha b hb
    simp only [decide_eq_true_eq, hpmem a ha, hpmem b hb, le_refl]
  have hsub : (l.filter p).Sublist (sortByAbsDeviation l) :=
    List.sublist_mergeSort absDevLe_trans absDevLe_total hpair (List.filter_sublist l)
  have hidem : (l.filter p).filter p = l.filter p :=
    List.filter_eq_self.mpr (fun a ha => List.of_mem_filter ha)
  have hsub2 : (l.filter p).Sublist ((sortByAbsDeviation l).filter p) := by
    rw [← hidem]
    exact hsub.filter p
  have hperm : ((sortByAbsDeviation l).filter p).Perm (l.filter p) :=
    (List.mergeSort_perm l _).filter p
  exact ((hsub2.eq_of_length hperm.length_eq.symm).symm)

/-! ## Helper lemmas about the valence check -/

/-- Adding a fresh entry whose symbol is in the valence table adds its
valence-weighted count to the hard-coded nine-element bond sum. -/
theorem totalBonds_cons {e : ElementSymbol} {rest : Formula} (c : ℕ)
    (he : e ∈ keysOf valency) (hnotmem : e ∉ keysOf rest) :
    totalBonds ((e, c) :: rest) =
      (List.lookup e valency).getD 0 * c + totalBonds rest := by
  have he9 : e = "C" ∨ e = "H" ∨ e = "N" ∨ e = "O" ∨ e = "S" ∨ e = "F" ∨
      e = "Cl" ∨ e = "Br" ∨ e = "I" := by
    simpa [valency, keysOf] using he
  have hz := fget_eq_zero hnotmem
  rcases he9 with rfl | rfl | rfl | rfl | rfl | rfl | rfl | rfl | rfl <;>
    simp [totalBonds, fget, lookup_cons_eq, lookup_cons_ne, hz, fget] at hz ⊢ <;>
    simp [hz] <;> simp [valency, List.lookup] <;> omega

/-- With distinct keys all covered by the valence table,
`maxPossibleBonds` returns normally and equals `totalBonds`: both sides of
the valence comparison coincide. -/
theorem maxPossibleBonds_eq :
    ∀ (f : Formula), (keysOf f).Nodup →
      (∀ e ∈ keysOf f, (List.lookup e valency).isSome = true) →
      maxPossibleBonds f = .ok (totalBonds f)
  | [], _, _ => rfl
  | (e, c) :: rest, hnd, hcov => by
    have he : e ∈ keysOf valency :=
      (lookup_isSome_iff valency e).mp (hcov e (by simp [keysOf]))
    have hnotmem : e ∉ keysOf rest := by
      have := hnd
      simp only [keysOf, List.map_cons, List.nodup_cons] at this
      exact this.1
    have hndtail : (keysOf rest).Nodup := by
      have := hnd
      simp only [keysOf, List.map_cons, List.nodup_cons] at this
      exact this.2
    have hrest := maxPossibleBonds_eq rest hndtail
      (fun x hx => hcov x (by simp only [keysOf, List.map_cons, List.mem_cons]; right; exact hx))
    obtain ⟨v, hv⟩ := Option.isSome_iff_exists.mp (hcov e (by simp [keysOf]))
    simp only [maxPossibleBonds]
    rw [hv]
    simp only []
    rw [hrest]
    simp only [Except.ok.injEq]
    rw [totalBonds_cons c he hnotmem, hv]
    rfl

/-! ## Claim theorems -/

/-- C1 (counterexample): with atomRanges `{"X": (0, 0)}` and an empty mass
table, the symbol `"X"` has no mass entry, yet `find_molecular_formulas`
does not fail with a missing-mass condition: it returns the empty result
list, because no enumerated combination has positive atom count and the
lookup is only attempted per candidate, never eagerly. -/
theorem missing_mass_not_raised_eagerly_cex :
    List.lookup "X" ([] : MassTable) = none ∧
      (find_molecular_formulas 10 5 [("X", (0, 0))] [] 0 (0, 100)).2 = .ok [] := by
  refine ⟨rfl, ?_⟩
  simp [find_molecular_formulas, candidateStream, generate_formulas, generateAux,
    cartProd, rangesOf, mkFormula, totalAtoms, scoreFormulas, sortByAbsDeviation,
    Except.map, List.mergeSort_nil]

/-- C1 (amended): the missing-mass failure is raised lazily, during
enumeration, not before it: if a symbol of atomRanges has no mass-table
entry, `find_molecular_formulas` raises a `KeyError` as soon as some
combination of the range product has total atom count in `(0, 150]`
(every candidate formula mentions every atomRanges symbol), and if no
combination passes the atom-count filter it completes without any error
and returns the empty list. -/
theorem missing_mass_raised_during_enumeration
    (t p ion : ℚ) (ur : ℚ × ℚ) (ar : AtomRanges) (mt : MassTable) :
    (∀ e ∈ keysOf ar, List.lookup e mt = none →
       ∀ c₀ ∈ cartProd (rangesOf ar),
         0 < totalAtoms (mkFormula ar c₀) → totalAtoms (mkFormula ar c₀) ≤ 150 →
         ∃ e', (find_molecular_formulas t p ar mt ion ur).2 =
           .error (Err.keyError e')) ∧
    ((∀ c ∈ cartProd (rangesOf ar),
        totalAtoms (mkFormula ar c) = 0 ∨ 150 < totalAtoms (mkFormula ar c)) →
      (find_molecular_formulas t p ar mt ion ur).2 = .ok []) := by
  constructor
  · intro e he hnone c₀ hc₀ htot hcap
    have hlen : ar.length ≤ c₀.length := by
      rw [length_of_mem_cartProd hc₀]
      simp [rangesOf]
    obtain ⟨e', herr⟩ :=
      generateAux_error_of_missing he hnone (cartProd (rangesOf ar)) c₀ hc₀ hlen htot hcap
    refine ⟨e', ?_⟩
    have herr' : generate_formulas ar mt
        ((t - ion) - p / 1000000 * (t - ion))
        ((t - ion) + p / 1000000 * (t - ion)) 150 = .error (.keyError e') := herr
    simp only [find_molecular_formulas, candidateStream]
    rw [herr']
    rfl
  · intro hall
    have hok : generate_formulas ar mt
        ((t - ion) - p / 1000000 * (t - ion))
        ((t - ion) + p / 1000000 * (t - ion)) 150 = .ok [] :=
      generateAux_all_skip (cartProd (rangesOf ar)) hall
    simp only [find_molecular_formulas, candidateStream]
    rw [hok]
    simp [scoreFormulas, Except.map, sortByAbsDeviation, List.mergeSort_nil]

/-- C1 (witness): with atomRanges `{"X": (0, 1)}` and an empty mass table,
the qualifying combination `[1]` exists, so the search raises a `KeyError`. -/
theorem missing_mass_raised_during_enumeration_witness :
    (List.lookup "X" ([] : MassTable) = none ∧
      [1] ∈ cartProd (rangesOf [("X", (0, 1))]) ∧
      0 < totalAtoms (mkFormula [("X", (0, 1))] [1])) ∧
    ∃ e', (find_molecular_formulas 10 5 [("X", (0, 1))] [] 0 (0, 100)).2 =
      .error (Err.keyError e') :=
  ⟨⟨rfl, by decide, by decide⟩,
    (missing_mass_raised_during_enumeration 10 5 0 (0, 100) [("X", (0, 1))] []).1
      "X" (by decide) rfl [1] (by decide) (by decide) (by decide)⟩

/-- C2 (counterexample): with atomRanges `{"C": (2, 1)}` (min > max) the
search does not fail with an `InvalidRange` error: the Python `range(2, 2)`
is empty, so the Cartesian product is empty and the call returns the empty
result list. -/
theorem invalid_range_no_error_cex :
    (find_molecular_formulas 10 5 [("C", (2, 1))] [("C", 12)] 0 (0, 100)).2 = .ok [] := by
  simp [find_molecular_formulas, candidateStream, generate_formulas, generateAux,
    cartProd, rangesOf, mkFormula, totalAtoms, scoreFormulas, sortByAbsDeviation,
    Except.map, List.mergeSort_nil]

/-- C2 (amended): no `InvalidRange` validation exists.  An atomRanges entry
with min > max makes that element's range empty, hence the whole product
empty, and `find_molecular_formulas` returns the empty result list instead
of raising. -/
theorem invalid_range_returns_empty
    (t p ion : ℚ) (ur : ℚ × ℚ) (ar : AtomRanges) (mt : MassTable)
    (e : ElementSymbol) (lo hi : ℕ) (hmem : (e, lo, hi) ∈ ar) (hlt : hi < lo) :
    (find_molecular_formulas t p ar mt ion ur).2 = .ok [] := by
  have hnil : [] ∈ rangesOf ar := by
    have hr : List.range' lo (hi + 1 - lo) = [] := by
      have h0 : hi + 1 - lo = 0 := by omega
      rw [h0]
      rfl
    rw [← hr]
    exact List.mem_map_of_mem _ hmem
  have hprod : cartProd (rangesOf ar) = [] := cartProd_eq_nil _ hnil
  have hok : generate_formulas ar mt
      ((t - ion) - p / 1000000 * (t - ion))
      ((t - ion) + p / 1000000 * (t - ion)) 150 = .ok [] := by
    simp only [generate_formulas, hprod]
    rfl
  simp only [find_molecular_formulas, candidateStream]
  rw [hok]
  simp [scoreFormulas, Except.map, sortByAbsDeviation, List.mergeSort_nil]

/-- C2 (witness): the entry `("C", (2, 1))` has min 2 > max 1 and the call
returns the empty list. -/
theorem invalid_range_returns_empty_witness :
    (("C", 2, 1) ∈ ([("C", (2, 1))] : AtomRanges) ∧ (1 : ℕ) < 2) ∧
    (find_molecular_formulas 7 3 [("C", (2, 1))] [("C", 12)] 0 (0, 100)).2 = .ok [] :=
  ⟨⟨by decide, by decide⟩,
    invalid_range_returns_empty 7 3 0 (0, 100) [("C", (2, 1))] [("C", 12)]
      "C" 2 1 (by decide) (by decide)⟩

/-- C5: `calculate_unsaturation` computes DBE = C − (H + X)/2 + N/2 + 1
with X = F + Cl + Br + I and absent elements counting as 0; in particular
it equals 1 when the C, H, N and halogen counts are all zero. -/
theorem unsaturation_formula (f : Formula) :
    calculate_unsaturation f =
      (fget f "C" : ℚ) -
        ((fget f "H" : ℚ) +
          ((fget f "F" : ℚ) + (fget f "Cl" : ℚ) + (fget f "Br" : ℚ) +
            (fget f "I" : ℚ))) / 2 +
        (fget f "N" : ℚ) / 2 + 1 ∧
    (fget f "C" = 0 → fget f "H" = 0 → fget f "N" = 0 → fget f "F" = 0 →
      fget f "Cl" = 0 → fget f "Br" = 0 → fget f "I" = 0 →
      calculate_unsaturation f = 1) := by
  constructor
  · rfl
  · intro hC hH hN hF hCl hBr hI
    simp only [calculate_unsaturation, hC, hH, hN, hF, hCl, hBr, hI]
    norm_num

/-- C5 (witness): the empty formula has no C, H, N or halogens and
unsaturation exactly 1. -/
theorem unsaturation_formula_witness : calculate_unsaturation [] = 1 :=
  (unsaturation_formula []).2 rfl rfl rfl rfl rfl rfl rfl

/-- C6: the mass window is derived from the de-ionized mass:
`exactMass = targetMass - ionization`,
`minMass = exactMass - (ppmTolerance/1e6)*exactMass` and
`maxMass = exactMass + (ppmTolerance/1e6)*exactMass`; the ppm tolerance is
applied relative to `exactMass`, not to `targetMass`. -/
theorem mass_window_relative_to_exact_mass
    (t p ion : ℚ) (ur : ℚ × ℚ) (ar : AtomRanges) (mt : MassTable) :
    find_molecular_formulas t p ar mt ion ur =
      ([⟨"Mass range from the expected value:",
          (t - ion) - p / 1000000 * (t - ion),
          (t - ion) + p / 1000000 * (t - ion)⟩],
       Except.map sortByAbsDeviation
         (candidateStream ar mt ((t - ion) - p / 1000000 * (t - ion))
           ((t - ion) + p / 1000000 * (t - ion)) (t - ion) ion ur)) := rfl

/-- C7 (counterexample): `is_valid_formula` does not return true for every
formula: on `{"Na": 1}` its `maxPossibleBonds` sum looks up `"Na"` in the
fixed valence table and raises `KeyError` instead of returning. -/
theorem valence_check_not_total_cex :
    is_valid_formula [("Na", 1)] = .error (.keyError "Na") := rfl

/-- C7 (amended): for every formula whose keys are distinct (the dict
invariant) and all covered by the fixed valence table, `totalBonds` and
`maxPossibleBonds` coincide, so `is_valid_formula` returns true; a formula
with a symbol outside the table instead raises `KeyError`. -/
theorem valence_check_true_on_covered (f : Formula)
    (hnd : (keysOf f).Nodup)
    (hcov : ∀ e ∈ keysOf f, (List.lookup e valency).isSome = true) :
    is_valid_formula f = .ok true := by
  simp only [is_valid_formula]
  rw [maxPossibleBonds_eq f hnd hcov]
  simp

/-- C7 (witness): ethane `{"C": 2, "H": 6}` is covered by the valence table
and accepted. -/
theorem valence_check_true_on_covered_witness :
    ((keysOf ([("C", 2), ("H", 6)] : Formula)).Nodup ∧
      ∀ e ∈ keysOf ([("C", 2), ("H", 6)] : Formula),
        (List.lookup e valency).isSome = true) ∧
    is_valid_formula [("C", 2), ("H", 6)] = .ok true :=
  ⟨⟨by decide, by decide⟩,
    valence_check_true_on_covered [("C", 2), ("H", 6)] (by decide) (by decide)⟩

/-- C9 (counterexample): the core is not print-free: `find_molecular_formulas`
prints the mass window on every call, so its observable effect is not only
the returned list. -/
theorem core_prints_cex :
    (find_molecular_formulas 10 5 [("C", (1, 1))] [("C", 12)] 0 (0, 100)).1 ≠ [] := by
  simp [find_molecular_formulas]

/-- C9 (amended): `find_molecular_formulas` prints exactly one line — the
mass window report — before enumerating; apart from that single print its
only externally observable effect is the returned result. -/
theorem prints_one_mass_window_line
    (t p ion : ℚ) (ur : ℚ × ℚ) (ar : AtomRanges) (mt : MassTable) :
    (find_molecular_formulas t p ar mt ion ur).1 =
      [⟨"Mass range from the expected value:",
        (t - ion) - p / 1000000 * (t - ion),
        (t - ion) + p / 1000000 * (t - ion)⟩] := rfl

/-- C3: with a mass table covering every configured symbol, the enumerator
returns normally and yields exactly those formulas built from the Cartesian
product of the per-element inclusive ranges whose total atom count is in
`(0, maxTotalAtoms]` and whose mass lies in the boundary-inclusive window
`[minMass, maxMass]`. -/
theorem enumerator_yields_exactly_filtered_product
    (ar : AtomRanges) (mt : MassTable) (minMass maxMass : ℚ) (cap : ℕ)
    (hcov : ∀ e ∈ keysOf ar, (List.lookup e mt).isSome = true) :
    ∃ fs, generate_formulas ar mt minMass maxMass cap = .ok fs ∧
      ∀ f, f ∈ fs ↔ ∃ combo ∈ cartProd (rangesOf ar), f = mkFormula ar combo ∧
        0 < totalAtoms f ∧ totalAtoms f ≤ cap ∧
        ∃ m, calculate_mass f mt = .ok m ∧ minMass ≤ m ∧ m ≤ maxMass :=
  generateAux_cover hcov (cartProd (rangesOf ar))

/-- C3 (witness): the carbon/hydrogen table covers `{"C": (0, 2), "H": (0, 2)}`. -/
theorem enumerator_yields_exactly_filtered_product_witness :
    (∀ e ∈ keysOf ([("C", (0, 2)), ("H", (0, 2))] : AtomRanges),
       (List.lookup e [("C", (12 : ℚ)), ("H", 1)]).isSome = true) ∧
    ∃ fs, generate_formulas [("C", (0, 2)), ("H", (0, 2))] [("C", 12), ("H", 1)]
        12 14 150 = .ok fs ∧
      ∀ f, f ∈ fs ↔
        ∃ combo ∈ cartProd (rangesOf [("C", (0, 2)), ("H", (0, 2))]),
          f = mkFormula [("C", (0, 2)), ("H", (0, 2))] combo ∧
          0 < totalAtoms f ∧ totalAtoms f ≤ 150 ∧
          ∃ m, calculate_mass f [("C", 12), ("H", 1)] = .ok m ∧ 12 ≤ m ∧ m ≤ 14 :=
  ⟨by decide,
    enumerator_yields_exactly_filtered_product [("C", (0, 2)), ("H", (0, 2))]
      [("C", 12), ("H", 1)] 12 14 150 (by decide)⟩

/-- C4: every successful result list of `find_molecular_formulas` is sorted
by ascending absolute deviation, and it is the stable sort of the
enumeration-order candidate list: within each class of equal absolute
deviation the enumeration order is preserved. -/
theorem results_sorted_stably_by_abs_deviation
    (t p ion : ℚ) (ur : ℚ × ℚ) (ar : AtomRanges) (mt : MassTable)
    (rs : List CandidateResult)
    (h : (find_molecular_formulas t p ar mt ion ur).2 = .ok rs) :
    List.Chain' (fun a b => |a.deviation| ≤ |b.deviation|) rs ∧
    ∃ rs₀, candidateStream ar mt ((t - ion) - p / 1000000 * (t - ion))
        ((t - ion) + p / 1000000 * (t - ion)) (t - ion) ion ur = .ok rs₀ ∧
      rs = sortByAbsDeviation rs₀ ∧
      ∀ q : ℚ, rs.filter (fun r => decide (|r.deviation| = q)) =
        rs₀.filter (fun r => decide (|r.deviation| = q)) := by
  simp only [find_molecular_formulas] at h
  cases hcs : candidateStream ar mt ((t - ion) - p / 1000000 * (t - ion))
      ((t - ion) + p / 1000000 * (t - ion)) (t - ion) ion ur with
  | error err =>
    rw [hcs] at h
    simp [Except.map] at h
  | ok rs₀ =>
    rw [hcs] at h
    simp only [Except.map, Except.ok.injEq] at h
    subst h
    exact ⟨(sortByAbsDeviation_pairwise rs₀).chain', rs₀, rfl, rfl,
      fun q => sortByAbsDeviation_filter rs₀ q⟩

/-- C4 (witness): a one-candidate search ({"C": (1, 1)} at mass 12 with a
very wide window) returns a sorted singleton. -/
theorem results_sorted_stably_by_abs_deviation_witness :
    ((find_molecular_formulas 12 1000000 [("C", (1, 1))] [("C", 12)] 0 (0, 100)).2 =
      .ok [⟨[("C", 1)], 12, 12, 0, 2⟩]) ∧
    List.Chain' (fun a b : CandidateResult => |a.deviation| ≤ |b.deviation|)
      [⟨[("C", 1)], 12, 12, 0, 2⟩] := by
  have hEval : (find_molecular_formulas 12 1000000 [("C", (1, 1))] [("C", 12)] 0
      (0, 100)).2 = .ok [⟨[("C", 1)], 12, 12, 0, 2⟩] := by
    norm_num [find_molecular_formulas, candidateStream, generate_formulas, generateAux,
      cartProd, rangesOf, mkFormula, totalAtoms, calculate_mass, scoreFormulas,
      calculate_unsaturation, fget, lookup_cons_eq, List.lookup_nil,
      sortByAbsDeviation, Except.map, List.mergeSort_singleton]
    rw [lookup_cons_ne _ _ (by decide), lookup_cons_ne _ _ (by decide),
      lookup_cons_ne _ _ (by decide), lookup_cons_ne _ _ (by decide),
      lookup_cons_ne _ _ (by decide), lookup_cons_ne _ _ (by decide)]
    norm_num [List.mergeSort_singleton]
  exact ⟨hEval,
    (results_sorted_stably_by_abs_deviation 12 1000000 0 (0, 100) [("C", (1, 1))]
      [("C", 12)] [⟨[("C", 1)], 12, 12, 0, 2⟩] hEval).1⟩

/-- C8: with a mass table assigning a positive mass to every configured
symbol, every formula the enumerator yields has total atom count at least 1
and strictly positive mass, so the zero-mass guard at the deviation step is
unreachable and the search never raises `ZeroDivisionError`. -/
theorem no_zero_division_with_positive_masses
    (t p ion minMass maxMass : ℚ) (ur : ℚ × ℚ) (ar : AtomRanges) (mt : MassTable)
    (hpos : ∀ e ∈ keysOf ar, ∃ m, List.lookup e mt = some m ∧ 0 < m) :
    (∀ fs, generate_formulas ar mt minMass maxMass 150 = .ok fs →
       ∀ f ∈ fs, 1 ≤ totalAtoms f ∧ ∃ m, calculate_mass f mt = .ok m ∧ 0 < m) ∧
    (find_molecular_formulas t p ar mt ion ur).2 ≠ .error Err.zeroDivision := by
  have hmain : ∀ (lo hi : ℚ) (fs : List Formula),
      generateAux ar mt lo hi 150 (cartProd (rangesOf ar)) = .ok fs →
      ∀ f ∈ fs, 1 ≤ totalAtoms f ∧ ∃ m, calculate_mass f mt = .ok m ∧ 0 < m := by
    intro lo hi fs hok f hf
    obtain ⟨combo, hc, heq, htot, hcap, m, hm, hw⟩ := generateAux_mem _ fs hok f hf
    have hkeys : ∀ e ∈ keysOf f, ∃ m', List.lookup e mt = some m' ∧ 0 < m' := by
      intro e he
      refine hpos e (keysOf_mkFormula_subset ar combo e ?_)
      rw [← heq]
      exact he
    obtain ⟨m', hm', _, hposm⟩ := calculate_mass_pos f mt hkeys
    rw [hm] at hm'
    cases hm'
    exact ⟨htot, m, hm, hposm htot⟩
  constructor
  · exact fun fs h => hmain minMass maxMass fs h
  · have hcovIs : ∀ e ∈ keysOf ar, (List.lookup e mt).isSome = true := by
      intro e he
      obtain ⟨m, hm, _⟩ := hpos e he
      simp [hm]
    obtain ⟨fs, hfs, _⟩ :=
      @generateAux_cover ar mt ((t - ion) - p / 1000000 * (t - ion))
        ((t - ion) + p / 1000000 * (t - ion)) 150
        hcovIs (cartProd (rangesOf ar))
    obtain ⟨rs, hrs⟩ := @scoreFormulas_ok_of_pos mt (t - ion) ion ur
      fs (fun f hf => (hmain _ _ fs hfs f hf).2)
    have hfs' : generate_formulas ar mt
        ((t - ion) - p / 1000000 * (t - ion))
        ((t - ion) + p / 1000000 * (t - ion)) 150 = .ok fs := hfs
    have hcs : candidateStream ar mt ((t - ion) - p / 1000000 * (t - ion))
        ((t - ion) + p / 1000000 * (t - ion)) (t - ion) ion ur = .ok rs := by
      simp only [candidateStream]
      rw [hfs']
      exact hrs
    intro hcontra
    simp only [find_molecular_formulas] at hcontra
    rw [hcs] at hcontra
    simp [Except.map] at hcontra

/-- C8 (witness): a table giving carbon the positive mass 12. -/
theorem no_zero_division_with_positive_masses_witness :
    (∀ e ∈ keysOf ([("C", (0, 2))] : AtomRanges),
       ∃ m, List.lookup e [("C", (12 : ℚ))] = some m ∧ 0 < m) ∧
    (find_molecular_formulas 24 100 [("C", (0, 2))] [("C", 12)] 0 (0, 100)).2 ≠
      .error Err.zeroDivision := by
  have hpos : ∀ e ∈ keysOf ([("C", (0, 2))] : AtomRanges),
      ∃ m, List.lookup e [("C", (12 : ℚ))] = some m ∧ 0 < m := by
    intro e he
    have : e = "C" := by simpa [keysOf] using he
    subst this
    exact ⟨12, rfl, by norm_num⟩
  exact ⟨hpos,
    (no_zero_division_with_positive_masses 24 100 0 0 0 (0, 100) [("C", (0, 2))]
      [("C", 12)] hpos).2⟩

/-- C10: every result of a successful search has a formula whose key list
is exactly the key list of atomRanges (zero-count elements kept), with each
count inside that element's inclusive bounds. -/
theorem results_within_atom_ranges
    (t p ion : ℚ) (ur : ℚ × ℚ) (ar : AtomRanges) (mt : MassTable)
    (rs : List CandidateResult) (hnd : (keysOf ar).Nodup)
    (h : (find_molecular_formulas t p ar mt ion ur).2 = .ok rs) :
    ∀ r ∈ rs, keysOf r.formula = keysOf ar ∧
      ∀ e lo hi, (e, lo, hi) ∈ ar →
        lo ≤ fget r.formula e ∧ fget r.formula e ≤ hi := by
  intro r hr
  simp only [find_molecular_formulas] at h
  cases hcs : candidateStream ar mt ((t - ion) - p / 1000000 * (t - ion))
      ((t - ion) + p / 1000000 * (t - ion)) (t - ion) ion ur with
  | error err =>
    rw [hcs] at h
    simp [Except.map] at h
  | ok rs₀ =>
    rw [hcs] at h
    simp only [Except.map, Except.ok.injEq] at h
    subst h
    have hr₀ : r ∈ rs₀ := mem_sortByAbsDeviation.mp hr
    simp only [candidateStream] at hcs
    cases hg : generate_formulas ar mt ((t - ion) - p / 1000000 * (t - ion))
        ((t - ion) + p / 1000000 * (t - ion)) 150 with
    | error err => rw [hg] at hcs; simp only [] at hcs; cases hcs
    | ok fs =>
      rw [hg] at hcs
      simp only [] at hcs
      have hfmem : r.formula ∈ fs := scoreFormulas_mem fs rs₀ hcs r hr₀
      have hg' : generateAux ar mt ((t - ion) - p / 1000000 * (t - ion))
          ((t - ion) + p / 1000000 * (t - ion)) 150 (cartProd (rangesOf ar)) =
          .ok fs := hg
      obtain ⟨combo, hcmem, heq, _, _, _⟩ :=
        generateAux_mem (cartProd (rangesOf ar)) fs hg' r.formula hfmem
      have hlen : ar.length ≤ combo.length := by
        rw [length_of_mem_cartProd hcmem]
        simp [rangesOf]
      constructor
      · rw [heq]
        exact keysOf_mkFormula ar combo hlen
      · intro e lo hi hmem
        rw [heq]
        exact fget_mkFormula_bounds ar combo hnd
          ((mem_cartProd _ _).mp hcmem) e lo hi hmem

/-- C10 (witness): a concrete singleton-result search whose result keeps the
key "C" with its count inside (1, 1). -/
theorem results_within_atom_ranges_witness :
    ((keysOf ([("C", (1, 1))] : AtomRanges)).Nodup ∧
      (find_molecular_formulas 12 1000000 [("C", (1, 1))] [("C", 12)] 0 (1, 100)).2 =
        .ok [⟨[("C", 1)], 12, 12, 0, 2⟩]) ∧
    keysOf ([("C", 1)] : Formula) = keysOf ([("C", (1, 1))] : AtomRanges) ∧
    ∀ e lo hi, (e, lo, hi) ∈ ([("C", (1, 1))] : AtomRanges) →
      lo ≤ fget [("C", 1)] e ∧ fget [("C", 1)] e ≤ hi := by
  have hEval : (find_molecular_formulas 12 1000000 [("C", (1, 1))] [("C", 12)] 0
      (1, 100)).2 = .ok [⟨[("C", 1)], 12, 12, 0, 2⟩] := by
    norm_num [find_molecular_formulas, candidateStream, generate_formulas, generateAux,
      cartProd, rangesOf, mkFormula, totalAtoms, calculate_mass, scoreFormulas,
      calculate_unsaturation, fget, lookup_cons_eq, List.lookup_nil,
      sortByAbsDeviation, Except.map, List.mergeSort_singleton]
    rw [lookup_cons_ne _ _ (by decide), lookup_cons_ne _ _ (by decide),
      lookup_cons_ne _ _ (by decide), lookup_cons_ne _ _ (by decide),
      lookup_cons_ne _ _ (by decide), lookup_cons_ne _ _ (by decide)]
    norm_num [List.mergeSort_singleton]
  refine ⟨⟨by decide, hEval⟩, ?_⟩
  have := results_within_atom_ranges 12 1000000 0 (1, 100) [("C", (1, 1))]
    [("C", 12)] [⟨[("C", 1)], 12, 12, 0, 2⟩] (by decide) hEval
    ⟨[("C", 1)], 12, 12, 0, 2⟩ (List.mem_cons_self _ _)
  exact this

end CATculator
